import Mathlib

/-
  Verification of the pause-aware timeline reconciliation and export core of
  the voice-pause-video repository.

  The definitions below are shallow embeddings of the JavaScript/TypeScript
  source.  Times and amplitudes are modelled as exact rationals (ℚ); the
  JavaScript numbers in the source carry the same arithmetic structure at the
  granularity the claims are stated.  Each definition names the source
  location it is translated from.
-/

namespace VPV

/-! ### Data model

`PauseEvent` mirrors the pause descriptors pushed by `togglePause`
(src/src/main.js, line 176): `{ startVideoTime, pauseDuration, frameDataURL }`. -/

structure PauseEvent where
  startVideoTime : ℚ
  pauseDuration : ℚ
  frameDataURL : String
deriving DecidableEq

/-- The ε-guard used by the export sweep (src/src/exporter.js line 87:
`if (segEnd > segStart + 0.001)`). -/
def eps : ℚ := 1/1000

/-- A segment-plan entry: either a copied slice of the original video or a
synthesized still-frame clip.  The sweep in `Exporter.export`
(src/src/exporter.js lines 78–104) emits these implicitly, one ffmpeg
invocation per entry. -/
inductive SegmentPlanEntry where
  | real (sourceStart sourceEnd : ℚ)
  | freeze (stillFrame : String) (duration : ℚ)
deriving DecidableEq

/-! ### The planning sweep

`planAux last totalDuration pauses` is the loop of `Exporter.export`
(src/src/exporter.js lines 84–104): `last` is the cursor (initially 0);
for each pause a real segment `[last, p.startVideoTime]` is emitted when
`segEnd > segStart + 0.001`, a freeze segment of `p.pauseDuration` is always
emitted, and the cursor moves to `p.startVideoTime`.  After the loop the tail
segment is extracted with `-ss last` and no end timestamp, i.e. it runs to
the end of the source video; `totalDuration` is that end. -/

def planAux (last totalDuration : ℚ) : List PauseEvent → List SegmentPlanEntry
  | [] => [SegmentPlanEntry.real last totalDuration]
  | p :: ps =>
      (if last + eps < p.startVideoTime then [SegmentPlanEntry.real last p.startVideoTime] else [])
      ++ SegmentPlanEntry.freeze p.frameDataURL p.pauseDuration
      :: planAux p.startVideoTime totalDuration ps

/-- The full plan produced by one export: the sweep starting at cursor 0
(src/src/exporter.js line 78: `let last = 0`). -/
def planSegments (totalDuration : ℚ) (pauses : List PauseEvent) : List SegmentPlanEntry :=
  planAux 0 totalDuration pauses

/-- Source ranges of the real segments of a plan, in plan order, freezes
ignored. -/
def realRanges : List SegmentPlanEntry → List (ℚ × ℚ)
  | [] => []
  | SegmentPlanEntry.real a b :: rest => (a, b) :: realRanges rest
  | SegmentPlanEntry.freeze _ _ :: rest => realRanges rest

/-- Still frame and duration of the freeze segments of a plan, in plan
order. -/
def freezes : List SegmentPlanEntry → List (String × ℚ)
  | [] => []
  | SegmentPlanEntry.real _ _ :: rest => freezes rest
  | SegmentPlanEntry.freeze f d :: rest => (f, d) :: freezes rest

/-- The unelided source ranges the sweep walks through: one range up to each
pause's start, then the tail range up to `totalDuration`.  This is the
sweep of src/src/exporter.js lines 84–104 with the ε-guard removed. -/
def sweepRanges (cursor totalDuration : ℚ) : List PauseEvent → List (ℚ × ℚ)
  | [] => [(cursor, totalDuration)]
  | p :: ps => (cursor, p.startVideoTime) :: sweepRanges p.startVideoTime totalDuration ps

/-- Drop every range of length ≤ ε except the final (tail) one, which the
export emits unconditionally (src/src/exporter.js lines 101–104). -/
def elideShort : List (ℚ × ℚ) → List (ℚ × ℚ)
  | [] => []
  | [r] => [r]
  | r :: s :: rest => (if r.1 + eps < r.2 then [r] else []) ++ elideShort (s :: rest)

/-- `TilesFrom a totalDuration rs`: the ranges `rs`, concatenated in order,
cover `[a, totalDuration)` exactly once — each range starts where the
previous ended (no gap, no overlap), ranges are non-inverted, and the last
range ends at `totalDuration`. -/
def TilesFrom (a totalDuration : ℚ) : List (ℚ × ℚ) → Prop
  | [] => a = totalDuration
  | r :: rest => r.1 = a ∧ r.1 ≤ r.2 ∧ TilesFrom r.2 totalDuration rest

/-- The ledger ordering invariant of the spec's data model: every event has
a nonnegative start and positive duration, and consecutive events have
non-overlapping `[startVideoTime, startVideoTime + pauseDuration)` ranges,
so `startVideoTime` is non-decreasing. -/
def LedgerOrdered (l : List PauseEvent) : Prop :=
  (∀ p ∈ l, 0 ≤ p.startVideoTime ∧ 0 < p.pauseDuration) ∧
  List.Chain' (fun p q => p.startVideoTime + p.pauseDuration ≤ q.startVideoTime) l

/-! ### Lemmas about the sweep -/

theorem sweepRanges_ne_nil (cursor totalDuration : ℚ) (ps : List PauseEvent) :
    sweepRanges cursor totalDuration ps ≠ [] := by
  cases ps <;> simp [sweepRanges]

theorem realRanges_append (a b : List SegmentPlanEntry) :
    realRanges (a ++ b) = realRanges a ++ realRanges b := by
  induction a with
  | nil => rfl
  | cons e rest ih => cases e <;> simp [realRanges, ih]

theorem elideShort_cons_of_ne_nil (r : ℚ × ℚ) (l : List (ℚ × ℚ)) (h : l ≠ []) :
    elideShort (r :: l) = (if r.1 + eps < r.2 then [r] else []) ++ elideShort l := by
  cases l with
  | nil => exact absurd rfl h
  | cons s rest => rfl

/-- The real ranges of the plan are exactly the sweep ranges with the
sub-ε ones elided (the tail kept unconditionally). -/
theorem realRanges_planAux (ps : List PauseEvent) :
    ∀ last totalDuration : ℚ,
      realRanges (planAux last totalDuration ps)
        = elideShort (sweepRanges last totalDuration ps) := by
  induction ps with
  | nil => intro last T; rfl
  | cons p ps ih =>
      intro last T
      rw [planAux, sweepRanges,
        elideShort_cons_of_ne_nil _ _ (sweepRanges_ne_nil _ _ _), realRanges_append]
      by_cases h : last + eps < p.startVideoTime <;>
        simp [h, realRanges, ih]

theorem elideShort_sublist (l : List (ℚ × ℚ)) : List.Sublist (elideShort l) l := by
  match l with
  | [] => simp [elideShort]
  | [r] => simp [elideShort]
  | r :: s :: rest =>
      rw [elideShort]
      by_cases h : r.1 + eps < r.2
      · simpa [h] using (elideShort_sublist (s :: rest)).cons₂ r
      · simpa [h] using (elideShort_sublist (s :: rest)).cons r

theorem short_of_not_mem_elideShort (r : ℚ × ℚ) (l : List (ℚ × ℚ))
    (hmem : r ∈ l) (hnot : r ∉ elideShort l) : r.2 ≤ r.1 + eps := by
  match l with
  | [] => cases hmem
  | [s] =>
      rw [List.mem_singleton] at hmem
      exact absurd (by simp [elideShort, hmem]) hnot
  | s :: t :: rest =>
      rw [List.mem_cons] at hmem
      rw [elideShort] at hnot
      rcases hmem with hmem | hmem
      · by_cases h : s.1 + eps < s.2
        · exact absurd (by simp [h, hmem]) hnot
        · subst hmem; exact le_of_not_lt h
      · refine short_of_not_mem_elideShort r (t :: rest) hmem fun hc => hnot ?_
        exact List.mem_append_right _ hc

theorem sweep_tiles (ps : List PauseEvent) :
    ∀ cursor totalDuration : ℚ,
      List.Chain' (· ≤ ·) (cursor :: ps.map PauseEvent.startVideoTime) →
      (ps.map PauseEvent.startVideoTime).getLastD cursor ≤ totalDuration →
      TilesFrom cursor totalDuration (sweepRanges cursor totalDuration ps) := by
  induction ps with
  | nil =>
      intro cursor T _ hlast
      simp only [List.map_nil, List.getLastD_nil] at hlast
      exact ⟨rfl, hlast, rfl⟩
  | cons p ps ih =>
      intro cursor T hchain hlast
      simp only [List.map_cons, List.chain'_cons] at hchain
      simp only [List.map_cons, List.getLastD_cons] at hlast
      exact ⟨rfl, hchain.1, ih p.startVideoTime T hchain.2 hlast⟩

theorem chain_map_le :
    ∀ l : List PauseEvent,
      (∀ p ∈ l, 0 < p.pauseDuration) →
      List.Chain' (fun p q => p.startVideoTime + p.pauseDuration ≤ q.startVideoTime) l →
      List.Chain' (· ≤ ·) (l.map PauseEvent.startVideoTime)
  | [], _, _ => by simp
  | [p], _, _ => by simp
  | p :: q :: l, hd, hc => by
      rw [List.map_cons, List.map_cons, List.chain'_cons]
      rw [List.chain'_cons] at hc
      refine ⟨?_, ?_⟩
      · have h1 := hd p (by simp)
        linarith [hc.1]
      · have := chain_map_le (q :: l) (fun r hr => hd r (List.mem_cons_of_mem p hr)) hc.2
        simpa using this

/-- C1: for every pause sequence satisfying the ledger ordering invariant and
every totalDuration ≥ the last pause's start, the sweep's unelided source
ranges tile `[0, totalDuration)` exactly once (no gap, no overlap), and the
RealSegment ranges the plan actually emits are exactly those ranges with the
ones of length ≤ ε elided (the tail is kept unconditionally); in particular
the emitted ranges are a sublist of the tiling (ends abut) and every omitted
range has length ≤ ε. -/
theorem plan_realRanges_cover (pauses : List PauseEvent) (totalDuration : ℚ)
    (hord : LedgerOrdered pauses)
    (hlast : (pauses.map PauseEvent.startVideoTime).getLastD 0 ≤ totalDuration) :
    TilesFrom 0 totalDuration (sweepRanges 0 totalDuration pauses)
    ∧ realRanges (planSegments totalDuration pauses)
        = elideShort (sweepRanges 0 totalDuration pauses)
    ∧ List.Sublist (realRanges (planSegments totalDuration pauses)) (sweepRanges 0 totalDuration pauses)
    ∧ ∀ r ∈ sweepRanges 0 totalDuration pauses,
        r ∉ realRanges (planSegments totalDuration pauses) → r.2 - r.1 ≤ eps := by
  have hchain : List.Chain' (· ≤ ·) ((0 : ℚ) :: pauses.map PauseEvent.startVideoTime) := by
    rcases pauses with _ | ⟨p, ps⟩
    · simp
    · rw [List.map_cons, List.chain'_cons]
      refine ⟨(hord.1 p (by simp)).1, ?_⟩
      have := chain_map_le (p :: ps) (fun r hr => (hord.1 r hr).2) hord.2
      simpa using this
  have heq : realRanges (planSegments totalDuration pauses)
      = elideShort (sweepRanges 0 totalDuration pauses) :=
    realRanges_planAux pauses 0 totalDuration
  refine ⟨sweep_tiles pauses 0 totalDuration hchain hlast, heq, ?_, ?_⟩
  · rw [heq]; exact elideShort_sublist _
  · intro r hmem hnot
    rw [heq] at hnot
    have := short_of_not_mem_elideShort r _ hmem hnot
    linarith

/-- The pause list of the spec's concrete scenario: pauses at 12.0 s for
3.3 s and at 47.1 s for 0.9 s. -/
def demoPauses : List PauseEvent :=
  [⟨12, 33/10, "f1"⟩, ⟨471/10, 9/10, "f2"⟩]

/-- Witness for C1: the hypotheses and conclusion hold at the spec's concrete
scenario (`totalDuration = 60`). -/
theorem plan_realRanges_cover_witness :
    (LedgerOrdered demoPauses
      ∧ (demoPauses.map PauseEvent.startVideoTime).getLastD 0 ≤ 60)
    ∧ (TilesFrom 0 60 (sweepRanges 0 60 demoPauses)
      ∧ realRanges (planSegments 60 demoPauses) = elideShort (sweepRanges 0 60 demoPauses)
      ∧ List.Sublist (realRanges (planSegments 60 demoPauses)) (sweepRanges 0 60 demoPauses)
      ∧ ∀ r ∈ sweepRanges 0 60 demoPauses,
          r ∉ realRanges (planSegments 60 demoPauses) → r.2 - r.1 ≤ eps) := by
  have hord : LedgerOrdered demoPauses := by
    constructor
    · intro p hp
      simp only [demoPauses, List.mem_cons, List.mem_singleton, List.not_mem_nil,
        or_false] at hp
      rcases hp with h | h <;> rw [h] <;> norm_num
    · norm_num [demoPauses, List.chain'_cons]
  have hlast : (demoPauses.map PauseEvent.startVideoTime).getLastD 0 ≤ 60 := by
    norm_num [demoPauses]
  exact ⟨⟨hord, hlast⟩, plan_realRanges_cover demoPauses 60 hord hlast⟩

theorem freezes_append (a b : List SegmentPlanEntry) :
    freezes (a ++ b) = freezes a ++ freezes b := by
  induction a with
  | nil => rfl
  | cons e rest ih => cases e <;> simp [freezes, ih]

theorem freezes_planAux (ps : List PauseEvent) :
    ∀ last totalDuration : ℚ,
      freezes (planAux last totalDuration ps)
        = ps.map (fun p => (p.frameDataURL, p.pauseDuration)) := by
  induction ps with
  | nil => intro last T; rfl
  | cons p ps ih =>
      intro last T
      rw [planAux, freezes_append]
      by_cases h : last + eps < p.startVideoTime <;> simp [h, freezes, ih]

/-- C2: the plan contains exactly one FreezeSegment per input pause event, in
the same relative order, with still frame and duration copied verbatim
(no clamp). -/
theorem plan_freezes_verbatim (totalDuration : ℚ) (pauses : List PauseEvent) :
    freezes (planSegments totalDuration pauses)
      = pauses.map (fun p => (p.frameDataURL, p.pauseDuration)) :=
  freezes_planAux pauses 0 totalDuration

/-! ### Trim range and undo/redo history

State owned by src/src/main.js lines 42–44: `undoStack`, `redoStack`,
`trimRange` (initially `{ start: 0, end: 1 }`).  The `start`/`stop` and
`fromR`/`toR` field names stand for the source's `start`/`end` and
`from`/`to` (`end` and `from` are Lean keywords). -/

structure TrimRange where
  start : ℚ
  stop : ℚ
deriving DecidableEq

structure HistoryItem where
  fromR : TrimRange
  toR : TrimRange
deriving DecidableEq

structure EditorState where
  undoStack : List HistoryItem
  redoStack : List HistoryItem
  trimRange : TrimRange
deriving DecidableEq

/-- `trimRange` initial value, src/src/main.js line 44. -/
def initialTrimRange : TrimRange := ⟨0, 1⟩

/-- The state change of the trim-silence click handler given the freshly
computed range `r` (src/src/main.js lines 213–216): push
`{from: prev, to: r}`, set the current range to `r`, clear the redo stack. -/
def applyTrim (s : EditorState) (r : TrimRange) : EditorState :=
  ⟨⟨s.trimRange, r⟩ :: s.undoStack, [], r⟩

/-- The undo click handler (src/src/main.js lines 222–229): pop the undo
stack; if empty do nothing, else push the item on the redo stack and restore
the item's `from` range. -/
def undoClick (s : EditorState) : EditorState :=
  match s.undoStack with
  | [] => s
  | item :: rest => ⟨rest, item :: s.redoStack, item.fromR⟩

/-- The redo click handler (src/src/main.js lines 230–241): pop the redo
stack; if empty do nothing, else push the item on the undo stack and restore
the item's `to` range. -/
def redoClick (s : EditorState) : EditorState :=
  match s.redoStack with
  | [] => s
  | item :: rest => ⟨item :: s.undoStack, rest, item.toR⟩

inductive EditOp where
  | trim (r : TrimRange)
  | undo
  | redo

def stepEditor (s : EditorState) : EditOp → EditorState
  | EditOp.trim r => applyTrim s r
  | EditOp.undo => undoClick s
  | EditOp.redo => redoClick s

def runEditor (s : EditorState) (ops : List EditOp) : EditorState :=
  ops.foldl stepEditor s

/-- Modelled from the spec: the pure linear history undo/redo is claimed to
implement.  `past` holds the ranges produced by the applied prefix of trims
(most recent first), `future` the undone ones (next redo first); the current
range is the head of `past` (or the initial range). -/
structure LinearHist where
  past : List TrimRange
  future : List TrimRange
deriving DecidableEq

/-- Modelled from the spec: a trim truncates the future; undo and redo move
one range across the boundary (no-ops at the ends). -/
def stepHist (h : LinearHist) : EditOp → LinearHist
  | EditOp.trim r => ⟨r :: h.past, []⟩
  | EditOp.undo =>
      match h.past with
      | [] => h
      | r :: rest => ⟨rest, r :: h.future⟩
  | EditOp.redo =>
      match h.future with
      | [] => h
      | f :: rest => ⟨f :: h.past, rest⟩

def runHist (h : LinearHist) (ops : List EditOp) : LinearHist :=
  ops.foldl stepHist h

/-- The undo stack a linear history corresponds to: each item records the
step from the range before it to the range at it. -/
def stackOfPast (r0 : TrimRange) : List TrimRange → List HistoryItem
  | [] => []
  | r :: rest => ⟨rest.headD r0, r⟩ :: stackOfPast r0 rest

/-- The redo stack a linear history corresponds to, given the current
range. -/
def stackOfFuture (cur : TrimRange) : List TrimRange → List HistoryItem
  | [] => []
  | f :: rest => ⟨cur, f⟩ :: stackOfFuture f rest

/-- Abstraction: the unique editor state corresponding to a linear history
over initial range `r0`. -/
def absState (r0 : TrimRange) (h : LinearHist) : EditorState :=
  ⟨stackOfPast r0 h.past, stackOfFuture (h.past.headD r0) h.future, h.past.headD r0⟩

theorem stepEditor_absState (r0 : TrimRange) (h : LinearHist) (op : EditOp) :
    stepEditor (absState r0 h) op = absState r0 (stepHist h op) := by
  cases op with
  | trim r =>
      simp [stepEditor, applyTrim, absState, stepHist, stackOfPast, stackOfFuture]
  | undo =>
      cases hp : h.past with
      | nil => simp [stepEditor, undoClick, absState, stepHist, stackOfPast, hp]
      | cons r rest =>
          simp [stepEditor, undoClick, absState, stepHist, stackOfPast, stackOfFuture, hp]
  | redo =>
      cases hf : h.future with
      | nil => simp [stepEditor, redoClick, absState, stepHist, stackOfFuture, hf]
      | cons f rest =>
          simp [stepEditor, redoClick, absState, stepHist, stackOfPast, stackOfFuture, hf]

theorem runEditor_absState (r0 : TrimRange) (ops : List EditOp) :
    ∀ h : LinearHist, runEditor (absState r0 h) ops = absState r0 (runHist h ops) := by
  induction ops with
  | nil => intro h; rfl
  | cons op ops ih =>
      intro h
      show runEditor (stepEditor (absState r0 h) op) ops = _
      rw [stepEditor_absState]
      exact ih (stepHist h op)

/-- C3: `applyTrim` pushes `{from: current, to: new}`, sets the current range
and clears the redo stack; `undo` on an empty stack is a no-op, otherwise it
pops, restores `from` and pushes to redo; `redo` is symmetric restoring `to`;
and after any operation sequence from the initial state the editor state —
in particular the current range — is exactly the image of replaying the
corresponding prefix of the applyTrim history (a pure linear history). -/
theorem trimHistory_linear (r0 : TrimRange) :
    (∀ s r, applyTrim s r = ⟨⟨s.trimRange, r⟩ :: s.undoStack, [], r⟩)
    ∧ (∀ redoS cur, undoClick ⟨[], redoS, cur⟩ = ⟨[], redoS, cur⟩)
    ∧ (∀ item rest redoS cur,
        undoClick ⟨item :: rest, redoS, cur⟩ = ⟨rest, item :: redoS, item.fromR⟩)
    ∧ (∀ undoS cur, redoClick ⟨undoS, [], cur⟩ = ⟨undoS, [], cur⟩)
    ∧ (∀ item rest undoS cur,
        redoClick ⟨undoS, item :: rest, cur⟩ = ⟨item :: undoS, rest, item.toR⟩)
    ∧ (∀ ops, runEditor ⟨[], [], r0⟩ ops = absState r0 (runHist ⟨[], []⟩ ops))
    ∧ (∀ ops, (runEditor ⟨[], [], r0⟩ ops).trimRange
        = (runHist ⟨[], []⟩ ops).past.headD r0) := by
  refine ⟨fun s r => rfl, fun redoS cur => rfl, fun item rest redoS cur => rfl,
    fun undoS cur => rfl, fun item rest undoS cur => rfl, ?_, ?_⟩
  · intro ops
    have h0 : (⟨[], [], r0⟩ : EditorState) = absState r0 ⟨[], []⟩ := rfl
    rw [h0, runEditor_absState]
  · intro ops
    have h0 : (⟨[], [], r0⟩ : EditorState) = absState r0 ⟨[], []⟩ := rfl
    rw [h0, runEditor_absState]
    rfl

/-! ### The trim-silence scan (src/src/main.js lines 207–220) -/

/-- The silence threshold of the trim-silence handler (main.js line 209). -/
def threshold : ℚ := 1/50

/-- The forward scan `let i = 0; while (i < len && Math.abs(pcm[i]) < threshold) i++`
(main.js line 211): `i` ends at the length of the maximal all-quiet
prefix. -/
def firstLoud (pcm : List ℚ) : ℕ :=
  (pcm.takeWhile (fun v => decide (|v| < threshold))).length

/-- The backward scan `let j = len - 1; while (j > 0 && Math.abs(pcm[j]) < threshold) j--`
(main.js line 212), started at index `j`. -/
def lastLoudFrom (pcm : List ℚ) : ℕ → ℕ
  | 0 => 0
  | j + 1 => if |pcm.getD (j + 1) 0| < threshold then lastLoudFrom pcm j else j + 1

/-- The range the trim-silence handler assigns (main.js line 214):
`{ start: i / len, end: (j + 1) / len }`. -/
def trimSilenceRange (pcm : List ℚ) : TrimRange :=
  ⟨(firstLoud pcm : ℚ) / pcm.length,
   ((lastLoudFrom pcm (pcm.length - 1) : ℚ) + 1) / pcm.length⟩

/-- The whole trim-silence click on a recorded buffer: compute the range,
then push it through the history (main.js lines 213–216). -/
def trimSilenceClick (pcm : List ℚ) (s : EditorState) : EditorState :=
  applyTrim s (trimSilenceRange pcm)

/-- C8 (evidence of the code bug): on the all-silent two-sample buffer
`[0, 0]` the trim-silence handler computes `start = 1`, `end = 1/2` — an
inverted range — so one trim-silence click from the initial state leaves the
editor in a state whose current range violates `start ≤ end`. -/
theorem trimSilence_silent_buffer_inverted :
    trimSilenceRange [0, 0] = ⟨1, 1/2⟩
    ∧ (trimSilenceClick [0, 0] ⟨[], [], initialTrimRange⟩).trimRange.stop
        < (trimSilenceClick [0, 0] ⟨[], [], initialTrimRange⟩).trimRange.start := by
  have h : trimSilenceRange [0, 0] = ⟨1, 1/2⟩ := by
    have h1 : firstLoud [0, 0] = 2 := by
      norm_num [firstLoud, List.takeWhile, threshold]
    have h2 : lastLoudFrom [0, 0] 1 = 0 := by
      norm_num [lastLoudFrom, threshold]
    rw [trimSilenceRange]
    norm_num [h1, h2]
  refine ⟨h, ?_⟩
  show (trimSilenceRange [0, 0]).stop < (trimSilenceRange [0, 0]).start
  rw [h]
  norm_num

/-! ### Waveform sampler (src/src/waveform.ts lines 31–50, identical port in
src/src/waveform.js lines 45–66)

`drawFromPCM` computes, per canvas column `x < width`, the min and max of the
window of `step = Math.max(1, Math.floor(len / width))` samples starting at
`x * step`, with `min`/`max` initialized to `1`/`-1`. -/

/-- The inner loop `for (let i = 0; i < step && start + i < len; i++)`
updating min and max; the first ℕ argument is the remaining budget
`step − i`. -/
def windowScan (pcm : List ℚ) (start : ℕ) : ℕ → ℕ → ℚ → ℚ → ℚ × ℚ
  | 0, _, mn, mx => (mn, mx)
  | k + 1, i, mn, mx =>
      match pcm[start + i]? with
      | none => (mn, mx)
      | some v =>
          windowScan pcm start k (i + 1) (if v < mn then v else mn) (if mx < v then v else mx)

/-- The column step `Math.max(1, Math.floor(float32.length / width))`. -/
def sampleStep (pcm : List ℚ) (width : ℕ) : ℕ := max 1 (pcm.length / width)

/-- The (min, max) pair of column `x` (`const start = x * step`, then the
inner loop from `min = 1`, `max = -1`). -/
def samplePair (pcm : List ℚ) (step x : ℕ) : ℚ × ℚ :=
  windowScan pcm (x * step) step 0 1 (-1)

/-- The sampler: one (min, max) pair per column `x ∈ [0, width)`
(`for (let x = 0; x < width; x++)`). -/
def sample (pcm : List ℚ) (width : ℕ) : List (ℚ × ℚ) :=
  (List.range width).map (samplePair pcm (sampleStep pcm width))

/-- Folding the min/max update of the inner loop over a list of samples. -/
def minMaxFold (l : List ℚ) (mn mx : ℚ) : ℚ × ℚ :=
  l.foldl (fun acc v => (if v < acc.1 then v else acc.1, if acc.2 < v then v else acc.2)) (mn, mx)

theorem windowScan_eq_minMaxFold (pcm : List ℚ) (start : ℕ) :
    ∀ (k i : ℕ) (mn mx : ℚ),
      windowScan pcm start k i mn mx = minMaxFold ((pcm.drop (start + i)).take k) mn mx := by
  intro k
  induction k with
  | zero => intro i mn mx; simp [windowScan, minMaxFold]
  | succ k ih =>
      intro i mn mx
      cases h : pcm[start + i]? with
      | none =>
          have hlen : pcm.length ≤ start + i := by
            simpa using List.getElem?_eq_none_iff.mp h
          rw [windowScan, h]
          simp [List.drop_eq_nil_of_le hlen, minMaxFold]
      | some v =>
          have hlt : start + i < pcm.length := by
            by_contra hc
            rw [List.getElem?_eq_none_iff.mpr (le_of_not_lt hc)] at h
            cases h
          have hv : pcm[start + i] = v := by
            have h2 := List.getElem?_eq_getElem hlt
            rw [h] at h2
            exact (Option.some.injEq _ _ ▸ h2.symm)
          have hdrop : pcm.drop (start + i) = v :: pcm.drop (start + i + 1) := by
            rw [List.drop_eq_getElem_cons hlt, hv]
          have hstep : windowScan pcm start (k + 1) i mn mx
              = windowScan pcm start k (i + 1)
                  (if v < mn then v else mn) (if mx < v then v else mx) := by
            rw [windowScan, h]
          rw [hstep, ih (i + 1), hdrop, List.take_succ_cons]
          have harith : start + (i + 1) = start + i + 1 := by omega
          rw [harith]
          rfl

/-- C4 (amended): for every PCM sequence and targetWidth, the sampler returns
exactly targetWidth pairs; the pair of column x is the min/max fold, from the
initial values (1, −1), over the window of `max(1, ⌊len/targetWidth⌋)`
samples starting at `x · step` and truncated at the end of the PCM (so
trailing samples beyond `targetWidth · step` are never visited, and windows
lying wholly past the end stay at the initial (1, −1)). -/
theorem sample_characterization (pcm : List ℚ) (width : ℕ) :
    (sample pcm width).length = width
    ∧ sample pcm width
        = (List.range width).map (fun x =>
            minMaxFold ((pcm.drop (x * sampleStep pcm width)).take (sampleStep pcm width)) 1 (-1)) := by
  constructor
  · simp [sample]
  · unfold sample
    refine List.map_congr_left fun x _ => ?_
    rw [samplePair, windowScan_eq_minMaxFold]
    rfl

/-- Modelled from the spec's words (§4.3 WaveformSampler): partition the PCM
into `targetWidth` contiguous windows of `ceil(len/targetWidth)` samples, min
and max of each window, (0, 0) for an empty one (the spec's empty-pcm edge
case). -/
def sampleSpecCeil (pcm : List ℚ) (width : ℕ) : List (ℚ × ℚ) :=
  (List.range width).map (fun k =>
    match (pcm.drop (k * ((pcm.length + width - 1) / width))).take
        ((pcm.length + width - 1) / width) with
    | [] => ((0 : ℚ), (0 : ℚ))
    | v :: rest => (rest.foldl min v, rest.foldl max v))

/-- C4 (counterexample): on the 3-sample buffer `[0, 0, 1]` with
targetWidth 2 the sampler does not partition into windows of
`ceil(len/targetWidth) = 2` samples: the code's step is
`max(1, ⌊3/2⌋) = 1`, so the last sample (the only nonzero one) falls in no
window and the output differs from the claimed ceil-partition sampling. -/
theorem sample_ne_spec_ceil : sample [0, 0, 1] 2 ≠ sampleSpecCeil [0, 0, 1] 2 := by
  have hcode : sample [0, 0, 1] 2 = [(0, 0), (0, 0)] := by
    have h : sampleStep [0, 0, 1] 2 = 1 := by norm_num [sampleStep]
    norm_num [sample, h, samplePair, windowScan, List.range_succ]
  have hspec : sampleSpecCeil [0, 0, 1] 2 = [(0, 0), (1, 1)] := by
    norm_num [sampleSpecCeil, List.range_succ]
  rw [hcode, hspec]
  intro h
  have := List.tail_eq_of_cons_eq h
  simp [Prod.ext_iff] at this

theorem sample_nil_eval (width : ℕ) : sample [] width = List.replicate width (1, -1) := by
  have hstep : sampleStep [] width = 1 := by simp [sampleStep]
  have h : ∀ x : ℕ, samplePair ([] : List ℚ) 1 x = (1, -1) := by
    intro x
    rw [samplePair, windowScan]
    simp
  rw [sample, hstep]
  rw [List.map_congr_left fun x _ => h x]
  simp [List.map_const', List.length_range]

/-- C5 (amended): sampling an empty PCM buffer produces exactly targetWidth
pairs, each equal to (1, −1) — every window is empty, so the initial
`min = 1`, `max = -1` survive untouched. -/
theorem sample_nil (width : ℕ) : sample [] width = List.replicate width (1, -1) :=
  sample_nil_eval width

/-- C5 (counterexample): at the spec's own test point (empty PCM,
targetWidth 100), the output is not 100 pairs of (0, 0). -/
theorem sample_nil_ne_spec : sample [] 100 ≠ List.replicate 100 ((0 : ℚ), (0 : ℚ)) := by
  rw [sample_nil_eval]
  intro h
  have h1 := congrArg List.head? h
  rw [List.head?_replicate, List.head?_replicate] at h1
  simp [Prod.ext_iff] at h1

/-! ### Pause commit at resume time (src/src/main.js lines 165–180) -/

/-- The resume branch of `togglePause`: with `lp = window._vpv_lastPause`
(the pause's video time `t` and captured frame, or `none` when no candidate
pause is open) and `prevMs = window._vpv_pauseStartAt` (milliseconds, 0 when
unset), the committed event is
`{ startVideoTime: lp.t, pauseDuration: Math.max(0.01, dur), frameDataURL: lp.frame }`
where `dur = prev ? (performance.now() - prev) / 1000 : 0.01`. -/
def recordResume (nowMs prevMs : ℚ) : Option (ℚ × String) → Option PauseEvent
  | none => none
  | some (t, frame) =>
      some ⟨t, max (1/100) (if prevMs ≠ 0 then (nowMs - prevMs) / 1000 else 1/100), frame⟩

/-- C9: every pause event committed at resume time has a pauseDuration of at
least 0.01 s — the elapsed wall-clock time floored at the 0.01 s minimum —
so no committed event has zero or negative duration. -/
theorem recordResume_min_duration (nowMs prevMs : ℚ) (lp : Option (ℚ × String))
    (p : PauseEvent) (h : recordResume nowMs prevMs lp = some p) :
    1/100 ≤ p.pauseDuration := by
  rcases lp with _ | ⟨t, frame⟩
  · cases h
  · simp only [recordResume, Option.some.injEq] at h
    rw [← h]
    exact le_max_left _ _

/-- Witness for C9 at a concrete resume: pause started at 1000 ms, resumed
at 5000 ms, so the committed duration is 4 s ≥ 0.01 s. -/
theorem recordResume_min_duration_witness :
    recordResume 5000 1000 (some (2, "f")) = some ⟨2, 4, "f"⟩
    ∧ 1/100 ≤ (PauseEvent.mk 2 4 "f").pauseDuration := by
  have h : recordResume 5000 1000 (some (2, "f")) = some ⟨2, 4, "f"⟩ := by
    norm_num [recordResume]
  exact ⟨h, recordResume_min_duration 5000 1000 _ _ h⟩

/-! ### Time formatting and the engine command trace
(src/src/exporter.js lines 72–121, src/src/main.js lines 244–284) -/

/-- The three fractional digits of the milliseconds remainder `r < 1000`,
zero-padded to width 3, as `toFixed(3)` renders them. -/
def frac3 (r : ℕ) : String :=
  String.mk [Nat.digitChar (r / 100), Nat.digitChar (r / 10 % 10), Nat.digitChar (r % 10)]

/-- Render a whole number of milliseconds as seconds with three fractional
digits. -/
def fmtString (m : ℕ) : String :=
  toString (m / 1000) ++ "." ++ frac3 (m % 1000)

/-- `const fmtTime = (t) => t.toFixed(3)` (src/src/exporter.js line 82):
a decimal string with exactly three fractional digits, rounding to the
nearest millisecond — for the nonnegative times used here `toFixed` rounds
ties up, i.e. to `⌊1000·t + 1/2⌋`. -/
def fmtTime (t : ℚ) : String :=
  fmtString (round (1000 * t)).toNat

/-- One engine interaction, in the narrow engine contract the orchestrator
uses: acquire/initialize (`ensureFFmpeg`), stage a named input
(`writeFile`), run an ffmpeg invocation (`ffmpeg.run(...args)`), read a
named output (`FS('readFile', ...)`).  Staged file contents are not
tracked — no claim depends on them. -/
inductive EngineCmd where
  | load
  | write (name : String)
  | run (args : List String)
  | read (name : String)
deriving DecidableEq

def segName (i : ℕ) : String := "seg_" ++ toString i ++ ".mp4"

def stillName (i : ℕ) : String := "still_" ++ toString i ++ ".png"

def fileEntry (name : String) : String := "file \x27" ++ name ++ "\x27"

/-- The per-pause loop and tail extraction of `Exporter.export`
(src/src/exporter.js lines 84–104), as the engine commands it issues and the
concat-list lines it accumulates.  `idx` is `segIndex`; the real-segment
extraction increments it first when emitted, the freeze always does. -/
def segCmds (last : ℚ) (idx : ℕ) : List PauseEvent → List EngineCmd × List String
  | [] =>
      ([EngineCmd.run ["-i", "input.mp4", "-ss", fmtTime last, "-c", "copy", segName idx]],
       [fileEntry (segName idx)])
  | p :: ps =>
      let emitReal := last + eps < p.startVideoTime
      let realCmds : List EngineCmd :=
        if emitReal then
          [EngineCmd.run ["-i", "input.mp4", "-ss", fmtTime last, "-to",
            fmtTime p.startVideoTime, "-c", "copy", segName idx]]
        else []
      let realList : List String := if emitReal then [fileEntry (segName idx)] else []
      let idx1 := if emitReal then idx + 1 else idx
      let rest := segCmds p.startVideoTime (idx1 + 1) ps
      (realCmds
        ++ EngineCmd.write (stillName idx1)
        :: EngineCmd.run ["-loop", "1", "-i", stillName idx1, "-t", fmtTime p.pauseDuration,
             "-vf", "format=yuv420p,scale=trunc(iw/2)*2:trunc(ih/2)*2", "-r", "30",
             "-pix_fmt", "yuv420p", segName idx1]
        :: rest.1,
       realList ++ fileEntry (segName idx1) :: rest.2)

/-- The fixed command suffix after the sweep (src/src/exporter.js lines
106–120): write the concat list, concat the segments, encode the narration
(with the loudnorm filter when `normalize`), mux, and read the output. -/
def postCmds (normalize : Bool) : List EngineCmd :=
  [EngineCmd.write "list.txt",
   EngineCmd.run ["-f", "concat", "-safe", "0", "-i", "list.txt", "-c", "copy",
     "video_full.mp4"],
   EngineCmd.run (["-i", "voice.m4a"]
     ++ (if normalize then ["-af", "loudnorm=I=-16:TP=-1.5:LRA=11"] else [])
     ++ ["-c:a", "aac", "-b:a", "192k", "voice.aac"]),
   EngineCmd.run ["-i", "video_full.mp4", "-i", "voice.aac", "-map", "0:v:0", "-map",
     "1:a:0", "-c:v", "copy", "-shortest", "output.mp4"],
   EngineCmd.read "output.mp4"]

/-- The full engine trace of one `Exporter.export` call
(src/src/exporter.js lines 72–121): acquire ffmpeg, stage the two inputs,
run the sweep, then the fixed suffix. -/
def exportCmds (pauses : List PauseEvent) (normalize : Bool) : List EngineCmd :=
  EngineCmd.load
  :: EngineCmd.write "input.mp4"
  :: EngineCmd.write "voice.m4a"
  :: (segCmds 0 0 pauses).1
  ++ postCmds normalize

inductive ExportError where
  | noNarrationRecorded
deriving DecidableEq

/-- `doExport` (src/src/main.js lines 244–284), as its result and engine
trace: with no recorded narration it alerts and returns at line 245, before
the `Exporter` is even constructed, so the trace is empty; otherwise the
narration trimming runs in an offline audio context (no engine involvement)
and the engine sees exactly the export command sequence. -/
def doExport (audioBlob : Option (List ℕ)) (pauses : List PauseEvent) (normalize : Bool) :
    Except ExportError Unit × List EngineCmd :=
  match audioBlob with
  | none => (Except.error ExportError.noNarrationRecorded, [])
  | some _ => (Except.ok (), exportCmds pauses normalize)

/-- C6: an export invocation with no recorded narration fails with
NoNarrationRecorded and performs no engine operation of any kind — the
engine trace is empty, so the engine is never acquired and no input is
staged. -/
theorem doExport_no_narration (pauses : List PauseEvent) (normalize : Bool) :
    doExport none pauses normalize = (Except.error ExportError.noNarrationRecorded, []) :=
  rfl

/-- The time values handed to the engine, in order: for each pause the
emitted real segment's start and end (when not elided), then the freeze
duration; finally the tail segment's start (the tail has no end
timestamp). -/
def planTimes (last : ℚ) : List PauseEvent → List ℚ
  | [] => [last]
  | p :: ps =>
      (if last + eps < p.startVideoTime then [last, p.startVideoTime] else [])
      ++ p.pauseDuration :: planTimes p.startVideoTime ps

/-- The arguments following a `-ss`, `-to` or `-t` flag in an ffmpeg
argument list: the positions where a time value is handed over. -/
def timeFlagArgs : List String → List String
  | a :: t :: rest =>
      if a = "-ss" ∨ a = "-to" ∨ a = "-t" then t :: timeFlagArgs rest
      else timeFlagArgs (t :: rest)
  | _ => []

def timeArgs : List EngineCmd → List String
  | [] => []
  | EngineCmd.run args :: rest => timeFlagArgs args ++ timeArgs rest
  | _ :: rest => timeArgs rest

theorem timeArgs_load_cons (rest : List EngineCmd) :
    timeArgs (EngineCmd.load :: rest) = timeArgs rest := rfl

theorem timeArgs_write_cons (n : String) (rest : List EngineCmd) :
    timeArgs (EngineCmd.write n :: rest) = timeArgs rest := rfl

theorem timeArgs_run_cons (args : List String) (rest : List EngineCmd) :
    timeArgs (EngineCmd.run args :: rest) = timeFlagArgs args ++ timeArgs rest := rfl

theorem timeArgs_append (a b : List EngineCmd) :
    timeArgs (a ++ b) = timeArgs a ++ timeArgs b := by
  induction a with
  | nil => rfl
  | cons c rest ih => cases c <;> simp [timeArgs, ih]

/-- Segment and still file names never collide with the time flags: they
start with the letter `s`, the flags with `-`. -/
theorem stillName_ne_timeFlag (i : ℕ) :
    ¬(stillName i = "-ss" ∨ stillName i = "-to" ∨ stillName i = "-t") := by
  have hhead : (stillName i).data.head? = some 's' := by
    rw [stillName, String.append_assoc, String.data_append]
    rfl
  rintro (h | h | h) <;> rw [h] at hhead <;> cases hhead

theorem timeArgs_postCmds (b : Bool) : timeArgs (postCmds b) = [] := by
  cases b <;> decide

theorem frac3_length (r : ℕ) : (frac3 r).length = 3 := rfl

theorem timeArgs_segCmds (ps : List PauseEvent) :
    ∀ (last : ℚ) (idx : ℕ),
      timeArgs (segCmds last idx ps).1 = (planTimes last ps).map fmtTime := by
  induction ps with
  | nil =>
      intro last idx
      simp [segCmds, timeArgs, timeFlagArgs, planTimes]
  | cons p ps ih =>
      intro last idx
      by_cases h : last + eps < p.startVideoTime <;>
        simp [segCmds, h, timeArgs, timeArgs_append, timeFlagArgs, planTimes, ih,
          stillName_ne_timeFlag]

/-- C10: every time value handed to the engine — each emitted real segment's
source start and end, each freeze duration, and the tail segment's start —
is rendered through `fmtTime`, and `fmtTime` renders a nonnegative time as a
decimal string with exactly three fractional digits whose value is
`round(1000·t)/1000`, within 1/2000 s of `t`: the executed boundaries are
quantized to the millisecond. -/
theorem export_times_quantized :
    (∀ (pauses : List PauseEvent) (normalize : Bool),
        timeArgs (exportCmds pauses normalize) = (planTimes 0 pauses).map fmtTime)
    ∧ ∀ t : ℚ, 0 ≤ t →
        ∃ m : ℕ, (m : ℚ) = round (1000 * t)
          ∧ fmtTime t = fmtString m
          ∧ fmtString m = toString (m / 1000) ++ "." ++ frac3 (m % 1000)
          ∧ (frac3 (m % 1000)).length = 3
          ∧ |(m : ℚ) / 1000 - t| ≤ 1/2000 := by
  constructor
  · intro pauses normalize
    have hseg := timeArgs_segCmds pauses 0 0
    simp only [exportCmds, timeArgs_load_cons, timeArgs_write_cons,
      timeArgs_append, hseg, timeArgs_postCmds, List.append_nil]
  · intro t ht
    have hround : (0 : ℤ) ≤ round (1000 * t) := by
      rw [round_eq]
      apply Int.floor_nonneg.mpr
      positivity
    refine ⟨(round (1000 * t)).toNat, ?_, rfl, rfl, frac3_length _, ?_⟩
    · exact_mod_cast Int.toNat_of_nonneg hround
    · have hcast : ((round (1000 * t)).toNat : ℚ) = ((round (1000 * t) : ℤ) : ℚ) := by
        exact_mod_cast Int.toNat_of_nonneg hround
      rw [hcast]
      have habs : |1000 * t - ((round (1000 * t) : ℤ) : ℚ)| ≤ 1/2 := abs_sub_round (1000 * t)
      have heq : ((round (1000 * t) : ℤ) : ℚ) / 1000 - t
          = (((round (1000 * t) : ℤ) : ℚ) - 1000 * t) / 1000 := by ring
      rw [heq, abs_div, abs_sub_comm]
      have h1000 : |(1000 : ℚ)| = 1000 := by norm_num
      rw [h1000]
      linarith

/-- Witness for C10's quantization at t = 1/3 s. -/
theorem export_times_quantized_witness :
    (0 : ℚ) ≤ 1/3
    ∧ ∃ m : ℕ, (m : ℚ) = round (1000 * (1/3 : ℚ))
        ∧ fmtTime (1/3) = fmtString m
        ∧ fmtString m = toString (m / 1000) ++ "." ++ frac3 (m % 1000)
        ∧ (frac3 (m % 1000)).length = 3
        ∧ |(m : ℚ) / 1000 - 1/3| ≤ 1/2000 :=
  ⟨by norm_num, export_times_quantized.2 (1/3) (by norm_num)⟩

/-! ### Progress parsing (src/src/exporter.js lines 42–46)

The logger callback handed to ffmpeg:
`const m = String(message || ''); const match = m.match(/\s(\d{1,3})%/);
if (match) this.onProgress(Number(match[1]));`
Messages are modelled as their character lists. -/

/-- JS `\s` on the ASCII range (the engine's log lines are ASCII; the
Unicode space classes `\s` also covers cannot occur in them). -/
def isWS (c : Char) : Bool :=
  c == ' ' || c == '\t' || c == '\n' || c == '\r' || c == '\x0b' || c == '\x0c'

def digitVal (c : Char) : ℕ := c.toNat - 48

/-- `Number(match[1])` on a digit string: its decimal value. -/
def natOfDigits (ds : List Char) : ℕ := ds.foldl (fun n c => 10 * n + digitVal c) 0

/-- Matching `(\d{1,3})%` at the head of `cs`.  The regex engine takes the
longest digit run of length ≤ 3 and backtracks until a `%` follows; because
`%` is not a digit at most one run length can succeed, so testing lengths in
increasing order (as below) returns the same unique result. -/
def matchAt : List Char → Option ℕ
  | c1 :: c2 :: rest2 =>
      if c1.isDigit then
        if c2 = '%' then some (natOfDigits [c1])
        else if c2.isDigit then
          match rest2 with
          | c3 :: rest3 =>
              if c3 = '%' then some (natOfDigits [c1, c2])
              else if c3.isDigit then
                match rest3 with
                | c4 :: _ =>
                    if c4 = '%' then some (natOfDigits [c1, c2, c3]) else none
                | [] => none
              else none
          | [] => none
        else none
      else none
  | _ => none

/-- The leftmost match of `m.match(/\s(\d{1,3})%/)`: the `\s` consumes one
whitespace character, the digits-and-percent group must follow it
immediately; earlier start positions win. -/
def findPercent : List Char → Option ℕ
  | [] => none
  | c :: rest =>
      if isWS c then
        match matchAt rest with
        | some n => some n
        | none => findPercent rest
      else findPercent rest

/-- The logger body as the list of `onProgress` invocations it makes:
one call with the parsed number when the regex matches, none otherwise
(and never an error). -/
def loggerCalls (cs : List Char) : List ℕ :=
  match findPercent cs with
  | some n => [n]
  | none => []

/-- The message contains a substring matching the percentage pattern
`\s(\d{1,3})%`: a whitespace character immediately followed by one to three
digits immediately followed by a percent sign. -/
def HasPercent (cs : List Char) : Prop :=
  ∃ (pre : List Char) (ws : Char) (ds : List Char) (suf : List Char),
    cs = pre ++ ws :: (ds ++ '%' :: suf)
    ∧ isWS ws = true ∧ ds ≠ [] ∧ ds.length ≤ 3 ∧ ∀ c ∈ ds, c.isDigit = true

theorem matchAt_some (cs : List Char) (n : ℕ) (h : matchAt cs = some n) :
    ∃ ds suf, cs = ds ++ '%' :: suf ∧ ds ≠ [] ∧ ds.length ≤ 3
      ∧ (∀ c ∈ ds, c.isDigit = true) ∧ n = natOfDigits ds := by
  rcases cs with _ | ⟨c1, _ | ⟨c2, rest2⟩⟩
  · cases h
  · cases h
  · simp only [matchAt] at h
    split_ifs at h with h1 h2 h2d
    · injection h with hn
      exact ⟨[c1], rest2, by simp [h2], by simp, by simp,
        by simp [h1], hn.symm⟩
    · rcases rest2 with _ | ⟨c3, rest3⟩
      · cases h
      · simp only at h
        split_ifs at h with h3 h3d
        · injection h with hn
          exact ⟨[c1, c2], rest3, by simp [h3], by simp, by simp,
            by simp [h1, h2d], hn.symm⟩
        · rcases rest3 with _ | ⟨c4, rest4⟩
          · cases h
          · simp only at h
            split_ifs at h with h4
            injection h with hn
            exact ⟨[c1, c2, c3], rest4, by simp [h4], by simp, by simp,
              by simp [h1, h2d, h3d], hn.symm⟩

theorem percent_not_digit : ('%').isDigit = false := by decide

theorem matchAt_complete (ds suf : List Char) (hne : ds ≠ []) (hlen : ds.length ≤ 3)
    (hdig : ∀ c ∈ ds, c.isDigit = true) :
    matchAt (ds ++ '%' :: suf) = some (natOfDigits ds) := by
  have hnp : ∀ c ∈ ds, c ≠ '%' := by
    intro c hc hcp
    have := hdig c hc
    rw [hcp] at this
    rw [percent_not_digit] at this
    cases this
  rcases ds with _ | ⟨d1, _ | ⟨d2, _ | ⟨d3, _ | ⟨d4, rest⟩⟩⟩⟩
  · exact absurd rfl hne
  · simp [matchAt, hdig d1 (by simp)]
  · simp [matchAt, hdig d1 (by simp), hdig d2 (by simp),
      hnp d2 (by simp)]
  · simp [matchAt, hdig d1 (by simp), hdig d2 (by simp), hdig d3 (by simp),
      hnp d2 (by simp), hnp d3 (by simp)]
  · simp at hlen

theorem findPercent_some_hasPercent (cs : List Char) :
    ∀ n : ℕ, findPercent cs = some n → HasPercent cs := by
  induction cs with
  | nil => intro n h; cases h
  | cons c rest ih =>
      intro n h
      rw [findPercent] at h
      by_cases hws : isWS c = true
      · rw [if_pos hws] at h
        cases hm : matchAt rest with
        | some m =>
            obtain ⟨ds, suf, hsplit, hne, hlen, hdig, _⟩ := matchAt_some rest m hm
            exact ⟨[], c, ds, suf, by simp [hsplit], hws, hne, hlen, hdig⟩
        | none =>
            rw [hm] at h
            obtain ⟨pre, ws, ds, suf, hsplit, hws2, hne, hlen, hdig⟩ := ih n h
            exact ⟨c :: pre, ws, ds, suf, by simp [hsplit], hws2, hne, hlen, hdig⟩
      · rw [if_neg hws] at h
        obtain ⟨pre, ws, ds, suf, hsplit, hws2, hne, hlen, hdig⟩ := ih n h
        exact ⟨c :: pre, ws, ds, suf, by simp [hsplit], hws2, hne, hlen, hdig⟩

theorem hasPercent_findPercent_isSome (cs : List Char) :
    HasPercent cs → (findPercent cs).isSome = true := by
  induction cs with
  | nil =>
      rintro ⟨pre, ws, ds, suf, hsplit, -, -, -, -⟩
      exact absurd hsplit (by simp)
  | cons c rest ih =>
      rintro ⟨pre, ws, ds, suf, hsplit, hws, hne, hlen, hdig⟩
      rcases pre with _ | ⟨p, pre2⟩
      · simp only [List.nil_append, List.cons.injEq] at hsplit
        obtain ⟨hc, hrest⟩ := hsplit
        rw [findPercent, hc, if_pos hws, hrest, matchAt_complete ds suf hne hlen hdig]
        rfl
      · simp only [List.cons_append, List.cons.injEq] at hsplit
        obtain ⟨-, hrest⟩ := hsplit
        have hrec := ih ⟨pre2, ws, ds, suf, hrest, hws, hne, hlen, hdig⟩
        rw [findPercent]
        by_cases hwc : isWS c = true
        · rw [if_pos hwc]
          cases hm : matchAt rest with
          | some m => rfl
          | none => simpa using hrec
        · rw [if_neg hwc]
          exact hrec

/-- C7: the logger invokes onProgress exactly when the message contains a
substring matching the percentage pattern `\s(\d{1,3})%`, forwarding the
parsed number unmodified (no clamping, no ordering correction — the call
list is literally the parse result); a message with no such substring makes
no call at all and raises no error. -/
theorem logger_progress (cs : List Char) :
    loggerCalls cs = (findPercent cs).toList
    ∧ ((∃ n, loggerCalls cs = [n]) ↔ HasPercent cs)
    ∧ (loggerCalls cs = [] ↔ ¬ HasPercent cs) := by
  refine ⟨?_, ?_, ?_⟩
  · rw [loggerCalls]
    cases findPercent cs <;> rfl
  · constructor
    · rintro ⟨n, hn⟩
      rw [loggerCalls] at hn
      cases hm : findPercent cs with
      | none => rw [hm] at hn; cases hn
      | some m => exact findPercent_some_hasPercent cs m hm
    · intro hp
      have hs := hasPercent_findPercent_isSome cs hp
      cases hm : findPercent cs with
      | none => rw [hm] at hs; cases hs
      | some m => exact ⟨m, by rw [loggerCalls, hm]⟩
  · constructor
    · intro h0 hp
      have hs := hasPercent_findPercent_isSome cs hp
      rw [loggerCalls] at h0
      cases hm : findPercent cs with
      | none => rw [hm] at hs; cases hs
      | some m => rw [hm] at h0; cases h0
    · intro hnp
      rw [loggerCalls]
      cases hm : findPercent cs with
      | none => rfl
      | some m => exact absurd (findPercent_some_hasPercent cs m hm) hnp

end VPV
